import Mathlib

/-!
Verification of the text layout engine of `cairosvg/text.py`.

The Python source is shallowly embedded below.  Floating point numbers are
modelled as real numbers (`ℝ`); Python `None` becomes `Option.none`.
Helper modules of the repository that are not part of the source tree under
verification (`helpers.py`, `bounding_box.py`) are modelled from the
specification and carry a doc comment saying so.
-/

namespace CairoSVGText

/-- One element of a flattened cairo path, as consumed by `path_length` and
`point_following_path` (`cairo.PATH_MOVE_TO`, `cairo.PATH_LINE_TO`,
`cairo.PATH_CLOSE_PATH`; the Python loops ignore every tag other than
move-to and line-to). -/
inductive PathItem where
  | moveTo (p : ℝ × ℝ)
  | lineTo (p : ℝ × ℝ)
  | closePath


abbrev FlatPath := List PathItem

/-- Modelled from the spec: `helpers.distance` (helpers.py is not under the
source tree) is the Euclidean distance between two points. -/
noncomputable def distance (x1 y1 x2 y2 : ℝ) : ℝ :=
  Real.sqrt ((x2 - x1) ^ 2 + (y2 - y1) ^ 2)

/-- Modelled from the spec: `helpers.point_angle` (helpers.py is not under the
source tree) is `atan2(y2 - y1, x2 - x1)`, the angle of the vector from the
first to the second point; `Complex.arg` agrees with `atan2` on its whole
domain, including the zero vector. -/
noncomputable def point_angle (x1 y1 x2 y2 : ℝ) : ℝ :=
  Complex.arg ⟨x2 - x1, y2 - y1⟩

/-- Accumulating loop of `path_length` (text.py lines 15-27).  The running
`old_point` starts out unassigned (`none`); a line-to met before any move-to
would raise `UnboundLocalError` in Python, modelled as result `none`. -/
noncomputable def path_length_go (old : Option (ℝ × ℝ)) (acc : ℝ) :
    FlatPath → Option ℝ
  | [] => some acc
  | PathItem.moveTo p :: rest => path_length_go (some p) acc rest
  | PathItem.closePath :: rest => path_length_go old acc rest
  | PathItem.lineTo p :: rest =>
    match old with
    | none => none
    | some o => path_length_go (some p) (acc + distance o.1 o.2 p.1 p.2) rest

/-- `path_length(path)` (text.py lines 15-27): sum of the Euclidean lengths of
the line-to segments of a flattened path. -/
noncomputable def path_length (path : FlatPath) : Option ℝ :=
  path_length_go none 0 path

/-- Result of `point_following_path`: a point, Python `None` (the loop falls
off the end of the path), or an `UnboundLocalError` (a line-to precedes every
move-to; never happens on a real cairo path). -/
inductive PFP where
  | pt (x y : ℝ)
  | nofind
  | err


/-- Accumulating loop of `point_following_path` (text.py lines 30-49). -/
noncomputable def pfp_go (old : Option (ℝ × ℝ)) (total width : ℝ) :
    FlatPath → PFP
  | [] => PFP.nofind
  | PathItem.moveTo p :: rest => pfp_go (some p) total width rest
  | PathItem.closePath :: rest => pfp_go old total width rest
  | PathItem.lineTo p :: rest =>
    match old with
    | none => PFP.err
    | some o =>
      let length := distance o.1 o.2 p.1 p.2
      let total' := total + length
      if total' < width then pfp_go (some p) total' width rest
      else
        let l := length - (total' - width)
        let angle := point_angle o.1 o.2 p.1 p.2
        PFP.pt (Real.cos angle * l + o.1) (Real.sin angle * l + o.2)

/-- `point_following_path(path, width)` (text.py lines 30-49): the point at
arc-length `width` along the flattened path. -/
noncomputable def point_following_path (path : FlatPath) (width : ℝ) : PFP :=
  pfp_go none 0 width path

/-- Total length of the polyline starting at `o` through the points `ps`
(the value `path_length` computes on a single-subpath polyline). -/
noncomputable def poly_length (o : ℝ × ℝ) : List (ℝ × ℝ) → ℝ
  | [] => 0
  | p :: ps => distance o.1 o.2 p.1 p.2 + poly_length p ps

/-- The point of the last move-to of a path, starting from a previously seen
move-to point `old` (mirrors how the loop variable `old_point` evolves over a
run of the path containing no line-to). -/
def last_move_from (old : Option (ℝ × ℝ)) : FlatPath → Option (ℝ × ℝ)
  | [] => old
  | PathItem.moveTo p :: rest => last_move_from (some p) rest
  | PathItem.closePath :: rest => last_move_from old rest
  | PathItem.lineTo _ :: rest => last_move_from old rest

/-- Python `str.isdigit()` restricted to ASCII decimal digits: true exactly on
non-empty strings all of whose characters are digits. -/
def py_isdigit (s : String) : Bool :=
  !(s == "") && s.toList.all Char.isDigit

/-- Python `int(s)` on an all-digit string: the base-10 value of its digits. -/
def str_to_nat (s : String) : ℕ :=
  s.toList.foldl (fun n c => 10 * n + (c.toNat - 48)) 0

/-- Font-weight resolution of `initial_context_font` (text.py lines 60-63):
a truthy all-digit `font-weight` attribute whose value is at least 550 is
replaced by the string `"bold"`; every other attribute value is kept. -/
def initial_font_weight (w : Option String) : Option String :=
  match w with
  | none => none
  | some s =>
    if s ≠ "" ∧ py_isdigit s ∧ 550 ≤ str_to_nat s then some "bold" else some s

/-- Font-size resolution of `initial_context_font` (text.py lines 68-73):
a truthy all-digit `font-size` attribute is converted with `float`; any other
form falls back to the surface's inherited `font_size`. -/
noncomputable def initial_font_size (attr : Option String) (surface_font_size : ℝ) : ℝ :=
  match attr with
  | none => surface_font_size
  | some s =>
    if s ≠ "" ∧ py_isdigit s then ((str_to_nat s : ℕ) : ℝ) else surface_font_size

/-- Per-character resolved position: each slot is a number or Python `None`
(list exhausted / not specified). -/
structure LetterPos where
  x : Option ℝ
  y : Option ℝ
  dx : Option ℝ
  dy : Option ℝ
  r : Option ℝ

/-- Worker of `zip_letters`, carrying the index of the next character. -/
def zip_letters_go (xl yl dxl dyl rl : List ℝ) (k : ℕ) :
    List Char → List (LetterPos × Char)
  | [] => []
  | c :: cs =>
    (⟨xl[k]?, yl[k]?, dxl[k]?, dyl[k]?, rl[k]?⟩, c)
      :: zip_letters_go xl yl dxl dyl rl (k + 1) cs

/-- Modelled from the spec: `helpers.zip_letters` (helpers.py is not under the
source tree) pairs the whitespace-separated attribute lists with the text's
codepoints, padding every list shorter than the text with `None`. -/
def zip_letters (xl yl dxl dyl rl : List ℝ) (word : String) :
    List (LetterPos × Char) :=
  zip_letters_go xl yl dxl dyl rl 0 word.toList

/-- The initial value of the `rotate` list (text.py line 122): the rotate
attribute being absent leaves the list at `[0]`. -/
noncomputable def initial_rotate : List ℝ := [0]

/-- `last_r = rotate[-1]` (text.py line 138).  The parsed rotate list is never
empty in the source (it defaults to `[0]` and parsing a present attribute
always yields at least one element), so the `getD 0` fallback is never
taken there. -/
noncomputable def last_r (rotate : List ℝ) : ℝ :=
  rotate.getLast?.getD 0

/-- The rotation applied to a character in free placement (text.py line 244):
`last_r if r is None else r`. -/
noncomputable def char_rotation (rotate : List ℝ) (r : Option ℝ) : ℝ :=
  match r with
  | none => last_r rotate
  | some v => v

/-- Horizontal anchor alignment (text.py lines 141-152): the `text-anchor`
attribute maps the measured width/bearing (and, when the letter spacing is
truthy and the text non-empty, the spacing) to the run's x offset. -/
noncomputable def x_align_of (text_anchor : Option String)
    (width x_bearing letter_spacing : ℝ) (text : String) : ℝ :=
  if text_anchor = some "middle" then
    (-(width / 2 + x_bearing))
      - (if letter_spacing ≠ 0 ∧ text ≠ "" then
          ((text.length : ℝ) - 1) * letter_spacing / 2 else 0)
  else if text_anchor = some "end" then
    (-(width + x_bearing))
      - (if letter_spacing ≠ 0 ∧ text ≠ "" then
          ((text.length : ℝ) - 1) * letter_spacing else 0)
  else 0

/-- Python `a or b` on optional strings: `a` when it is truthy (present and
non-empty), else `b`.  Used for `dominant-baseline or alignment-baseline`
(text.py lines 163-164). -/
def py_or (a b : Option String) : Option String :=
  if a.getD "" ≠ "" then a else b

/-- Vertical baseline alignment (text.py lines 161-186): applied only for
horizontal font metrics (`max_x_advance > 0 and max_y_advance == 0`);
`display-anchor` takes priority over the baseline keywords. -/
noncomputable def y_align_of (ascent descent max_x_advance max_y_advance
    height y_bearing : ℝ)
    (display_anchor dominant_baseline alignment_baseline : Option String) : ℝ :=
  if 0 < max_x_advance ∧ max_y_advance = 0 then
    let ab := py_or dominant_baseline alignment_baseline
    if display_anchor = some "middle" then -height / 2 - y_bearing
    else if display_anchor = some "top" then -y_bearing
    else if display_anchor = some "bottom" then -height - y_bearing
    else if ab = some "central" ∨ ab = some "middle" then
      (ascent + descent) / 2 - descent
    else if ab = some "text-before-edge" ∨ ab = some "before_edge" ∨
        ab = some "top" ∨ ab = some "hanging" ∨ ab = some "text-top" then ascent
    else if ab = some "text-after-edge" ∨ ab = some "after_edge" ∨
        ab = some "bottom" ∨ ab = some "text-bottom" then -descent
    else 0
  else 0

/-- Modelled from the spec: the bounding box (bounding_box.py is not under the
source tree) is the empty sentinel or a (min, max) pair of 2-D extents. -/
abbrev BBox := Option ((ℝ × ℝ) × (ℝ × ℝ))

/-- Modelled from the spec: `EMPTY_BOUNDING_BOX` is the empty sentinel. -/
def EMPTY_BOUNDING_BOX : BBox := none

/-- Modelled from the spec: `extend_bounding_box` is a no-op on an empty list
of points and otherwise grows the box so that it covers the new points. -/
noncomputable def extend_bounding_box (b : BBox) (points : List (ℝ × ℝ)) : BBox :=
  points.foldl
    (fun b p =>
      match b with
      | none => some (p, p)
      | some (mn, mx) =>
        some ((min mn.1 p.1, min mn.2 p.2), (max mx.1 p.1, max mx.2 p.2)))
    b

/-- The six numbers returned by cairo's `text_extents` query. -/
structure TextExtents where
  x_bearing : ℝ
  y_bearing : ℝ
  width : ℝ
  height : ℝ
  x_advance : ℝ
  y_advance : ℝ

/-- The mutable state touched by one iteration of the per-character loop in
path-following mode: the shared `surface.text_path_width` cursor, the shared
`surface.cursor_d_position` delta accumulator, the local bounding box, and
the glyphs emitted so far (`show_text` / `text_path` calls). -/
structure TState where
  text_path_width : ℝ
  cursor_d_position : ℝ × ℝ
  bounding_box : BBox
  emitted : List Char

/-- Delta-accumulator update at the top of the per-character loop (text.py
lines 204-210): Python `if x:` resets the x component only when the resolved
`x` is present *and* non-zero (truthiness), then `dx or 0` is added;
symmetrically for `y`/`dy`. -/
noncomputable def cursor_d_update (pos : LetterPos) (d : ℝ × ℝ) : ℝ × ℝ :=
  ((if pos.x.getD 0 ≠ 0 then 0 else d.1) + pos.dx.getD 0,
   (if pos.y.getD 0 ≠ 0 then 0 else d.2) + pos.dy.getD 0)

/-- One iteration of the per-character loop in path-following mode (text.py
lines 204-233 and 256-262).  Context transform calls (`save`, `translate`,
`rotate`, `move_to`, `restore`) are not represented; glyph output is recorded
in `emitted`.  The result is `none` when a `point_following_path` sample
raises (`PFP.err`), which aborts the render in Python. -/
noncomputable def path_char_step (cairo_path : FlatPath)
    (length letter_spacing : ℝ) (i : ℕ) (pos : LetterPos) (letter : Char)
    (te : TextExtents) (st : TState) : Option TState :=
  let d := cursor_d_update pos st.cursor_d_position
  let extents := te.x_advance
  let start := st.text_path_width + d.1
  let start_point := point_following_path cairo_path start
  let middle := start + extents / 2
  let middle_point := point_following_path cairo_path middle
  let «end» := start + extents
  let end_point := point_following_path cairo_path «end»
  let extents := if i ≠ 0 then extents + letter_spacing else extents
  let tpw := st.text_path_width + extents
  match start_point, middle_point, end_point with
  | PFP.err, _, _ => none
  | _, PFP.err, _ => none
  | _, _, PFP.err => none
  | sp, mp, ep =>
    let st1 : TState := { st with cursor_d_position := d, text_path_width := tpw }
    match sp, mp, ep with
    | PFP.pt _ _, PFP.pt _ _, PFP.pt endX _ =>
      if ¬ (0 ≤ middle ∧ middle ≤ length) then some st1
      else
        some { st1 with
          bounding_box :=
            extend_bounding_box st1.bounding_box [(endX, te.height)],
          emitted :=
            st1.emitted ++ (if letter.isWhitespace then [] else [letter]) }
    | _, _, _ => some st1

/-- The no-text branch of `text` (text.py lines 265-270): a node without
literal text only moves the shared cursor, using the head of each positional
list (Python list truthiness) and emitting nothing. -/
noncomputable def no_text_step (x y dx dy : List ℝ) (cursor : ℝ × ℝ) :
    (ℝ × ℝ) × List Char :=
  let x0 := match x with | [] => cursor.1 | v :: _ => v
  let y0 := match y with | [] => cursor.2 | v :: _ => v
  let dx0 := match dx with | [] => (0 : ℝ) | v :: _ => v
  let dy0 := match dy with | [] => (0 : ℝ) | v :: _ => v
  ((x0 + dx0, y0 + dy0), [])

/-- A document node: a tag and an ordered list of children.  Python's parent
back-references are modelled by addressing a node as a path of child indices
from the root, so the parent is the path without its last index. -/
inductive DNode where
  | mk (tag : String) (children : List DNode)

def DNode.tag : DNode → String
  | DNode.mk t _ => t

def DNode.children : DNode → List DNode
  | DNode.mk _ c => c

/-- The node of the tree `t` addressed by the index path `loc`, when valid. -/
def nodeAt : DNode → List ℕ → Option DNode
  | n, [] => some n
  | n, i :: rest =>
    match n.children[i]? with
    | some c => nodeAt c rest
    | none => none

/-- The tag of the node addressed by `loc` (empty string off the tree). -/
def tagAt (t : DNode) (loc : List ℕ) : String :=
  ((nodeAt t loc).map DNode.tag).getD ""

/-- The node addressed by `loc`, with a dummy default off the tree. -/
def nodeAtD (t : DNode) (loc : List ℕ) : DNode :=
  (nodeAt t loc).getD (DNode.mk "" [])

/-- The `while` loop of `get_node_text_extents` (text.py lines 89-91): walk up
from `loc` towards the root while the current node's tag is not `text` and a
parent exists. -/
def walk_up (t : DNode) (loc : List ℕ) : List ℕ :=
  if h : loc = [] then loc
  else if tagAt t loc = "text" then loc
  else walk_up t loc.dropLast
termination_by loc.length
decreasing_by
  have hl : loc.length ≠ 0 := fun h0 => h (List.length_eq_zero.mp h0)
  simp [List.length_dropLast]
  omega

/-- Container election of `get_node_text_extents` (text.py lines 89-93): the
result of the walk-up, except that when the walk moved away from `loc` and
still did not land on a `text`-tagged node, the queried node itself is used. -/
def find_container (t : DNode) (loc : List ℕ) : List ℕ :=
  let p := walk_up t loc
  if p ≠ loc ∧ tagAt t p ≠ "text" then loc else p

/-- The claim's description of the container: the nearest (longest) ancestor
of `loc` — inclusively, `loc` itself counts — whose tag is `text`, and `loc`
itself when no such ancestor exists.  Ancestors of `loc` are its prefixes
`loc.take k`; scanning `k` from `loc.length` down to 0 visits them nearest
first. -/
def nearest_text_ancestor (t : DNode) (loc : List ℕ) : List ℕ :=
  match (((List.range (loc.length + 1)).reverse).filter
      (fun k => tagAt t (loc.take k) == "text")).head? with
  | some k => loc.take k
  | none => loc

mutual

/-- `iter_nodes(node)` (text.py lines 82-85) as the pre-order list of index
paths of the node's descendants (the node itself first); paths stand for the
identity of the visited Python objects. -/
def iterLocs : DNode → List (List ℕ)
  | DNode.mk _ cs => [] :: iterLocsList 0 cs

/-- Pre-order index paths of the children `cs`, the first child having
index `k`. -/
def iterLocsList : ℕ → List DNode → List (List ℕ)
  | _, [] => []
  | k, c :: cs => (iterLocs c).map (fun l => k :: l) ++ iterLocsList (k + 1) cs

end

/-- Accumulator of the `for sub_node in iter_nodes(...)` loop of
`get_node_text_extents` (text.py lines 94-101). -/
structure ExtAcc where
  xb : ℝ
  yb : ℝ
  w : ℝ
  h : ℝ

/-- One iteration of the aggregation loop (text.py lines 95-101): every
descendant's width is added; the bearings and the height are overwritten
exactly when the visited descendant is the queried node itself. -/
noncomputable def measure_step (ext : List ℕ → TextExtents) (loc : List ℕ)
    (a : ExtAcc) (sl : List ℕ) : ExtAcc :=
  let e := ext sl
  { xb := if sl = loc then e.x_bearing else a.xb
    yb := if sl = loc then e.y_bearing else a.yb
    w := a.w + e.width
    h := if sl = loc then e.height else a.h }

/-- `get_node_text_extents(surface, node)` (text.py lines 88-104).  The
drawing surface's single-string extent query (`get_single_node_text_extends`,
which also sets up the descendant's own font context) is abstracted as the
function `ext` from a node's index path to its extents. -/
noncomputable def get_node_text_extents (ext : List ℕ → TextExtents)
    (t : DNode) (loc : List ℕ) : TextExtents :=
  let c := find_container t loc
  let subs := (iterLocs (nodeAtD t c)).map (fun l => c ++ l)
  let a := subs.foldl (measure_step ext loc) ⟨0, 0, 0, 0⟩
  ⟨a.xb, a.yb, a.w, a.h, a.w - a.xb, a.h - a.yb⟩

/-! ## Theorems -/

/-- C2: the horizontal anchor alignment.  `middle` yields `-(w/2 + b)` less
`(n-1)·s/2` when the spacing is non-zero and the text non-empty; `end` yields
`-(w + b)` less `(n-1)·s`; every other anchor yields 0; and on the concrete
inputs `w = 40`, `b = 2`, `n = 3`, `s = 1` the two anchors give `-23` and
`-44`. -/
theorem C2_x_align (w b s : ℝ) (text : String) :
    x_align_of (some "middle") w b s text
      = -(w / 2 + b) - (if s ≠ 0 ∧ text ≠ "" then
          ((text.length : ℝ) - 1) * s / 2 else 0)
    ∧ x_align_of (some "end") w b s text
      = -(w + b) - (if s ≠ 0 ∧ text ≠ "" then
          ((text.length : ℝ) - 1) * s else 0)
    ∧ (∀ a : Option String, a ≠ some "middle" → a ≠ some "end" →
        x_align_of a w b s text = 0)
    ∧ x_align_of (some "middle") 40 2 1 "abc" = -23
    ∧ x_align_of (some "end") 40 2 1 "abc" = -44 := by
  have h3 : ("abc" : String).length = 3 := rfl
  refine ⟨by simp [x_align_of], by simp [x_align_of], ?_, ?_, ?_⟩
  · intro a h1 h2
    simp [x_align_of, h1, h2]
  · rw [x_align_of, if_pos rfl, if_pos ⟨by norm_num, by simp⟩, h3]
    norm_num
  · rw [x_align_of, if_neg (by simp), if_pos rfl,
      if_pos ⟨by norm_num, by simp⟩, h3]
    norm_num

/-- C2 witness: the theorem applied at the concrete inputs of the claim. -/
theorem C2_x_align_witness :
    x_align_of none 40 2 1 "abc" = 0
    ∧ x_align_of (some "middle") 40 2 1 "abc" = -23 := by
  refine ⟨(C2_x_align 40 2 1 "abc").2.2.1 none (by simp) (by simp),
    (C2_x_align 40 2 1 "abc").2.2.2.1⟩

/-- C5 counterexample: the x coordinate `0` is explicitly given, yet the delta
accumulator's x component (previously 5, `dx` absent) is *not* reset to 0 —
Python `if x:` tests truthiness, not presence. -/
theorem C5_counterexample :
    ¬ ((cursor_d_update ⟨some 0, none, none, none, none⟩ ((5 : ℝ), 0)).1 = 0) := by
  simp [cursor_d_update]

/-- C5 (amended): the delta accumulator's x component is reset to 0 before
`dx` is added exactly when the resolved `x` is given *and non-zero* (Python
truthiness); otherwise `dx or 0` is added to the previous value; symmetrically
for `y`/`dy`. -/
theorem C5_delta_update (pos : LetterPos) (d : ℝ × ℝ) :
    (∀ v : ℝ, pos.x = some v → v ≠ 0 →
      (cursor_d_update pos d).1 = 0 + pos.dx.getD 0)
    ∧ ((pos.x = none ∨ pos.x = some 0) →
      (cursor_d_update pos d).1 = d.1 + pos.dx.getD 0)
    ∧ (∀ v : ℝ, pos.y = some v → v ≠ 0 →
      (cursor_d_update pos d).2 = 0 + pos.dy.getD 0)
    ∧ ((pos.y = none ∨ pos.y = some 0) →
      (cursor_d_update pos d).2 = d.2 + pos.dy.getD 0) := by
  refine ⟨?_, ?_, ?_, ?_⟩
  · intro v hv hv0
    simp [cursor_d_update, hv, hv0]
  · rintro (h | h) <;> simp [cursor_d_update, h]
  · intro v hv hv0
    simp [cursor_d_update, hv, hv0]
  · rintro (h | h) <;> simp [cursor_d_update, h]

/-- C5 witness: explicit non-zero `x = 2` with `dx = 3` resets the
accumulator before adding. -/
theorem C5_delta_update_witness :
    (cursor_d_update ⟨some 2, none, some 3, none, none⟩ ((5 : ℝ), 7)).1
      = 0 + (some (3 : ℝ)).getD 0 :=
  (C5_delta_update ⟨some 2, none, some 3, none, none⟩ (5, 7)).1 2 rfl
    (by norm_num)

/-- C7: whenever the font metrics are not the horizontal model
(`max_x_advance > 0` and `max_y_advance = 0`), the vertical alignment is 0 and
therefore independent of the display-anchor and baseline attributes. -/
theorem C7_y_align_guard (ascent descent mx my height yb : ℝ)
    (da db ab : Option String) (h : ¬ (0 < mx ∧ my = 0)) :
    y_align_of ascent descent mx my height yb da db ab = 0
    ∧ ∀ da' db' ab' : Option String,
        y_align_of ascent descent mx my height yb da db ab
          = y_align_of ascent descent mx my height yb da' db' ab' := by
  constructor
  · simp only [y_align_of, if_neg h]
  · intro da' db' ab'
    simp only [y_align_of, if_neg h]

/-- C7 witness: with `max_y_advance = 1 > 0` the display-anchor `middle` is
ignored. -/
theorem C7_y_align_guard_witness :
    y_align_of 10 2 3 1 4 5 (some "middle") none none = 0 :=
  (C7_y_align_guard 10 2 3 1 4 5 (some "middle") none none (by norm_num)).1

/-- C8: a node without literal text emits nothing and moves the shared cursor
to `(firstX or cursor.x + firstDx, firstY or cursor.y + firstDy)`; in
particular `x="5" y="5"` with no `dx`/`dy` leaves the cursor at `(5, 5)`. -/
theorem C8_no_text (x y dx dy : List ℝ) (cursor : ℝ × ℝ) :
    (no_text_step x y dx dy cursor).2 = []
    ∧ (no_text_step x y dx dy cursor).1
      = (x.headD cursor.1 + dx.headD 0, y.headD cursor.2 + dy.headD 0)
    ∧ no_text_step [5] [5] [] [] cursor = ((5, 5), []) := by
  refine ⟨rfl, ?_, ?_⟩
  · cases x <;> cases y <;> cases dx <;> cases dy <;>
      simp [no_text_step, List.headD]
  · norm_num [no_text_step]

/-- C9: a truthy all-digit font-weight of value at least 550 is coerced to
`"bold"`, and the explicit font-size is honored exactly when it is an
all-digit string, the surface's inherited size being used otherwise. -/
theorem C9_font_attrs (s : String) (fs : ℝ) :
    (py_isdigit s = true → 550 ≤ str_to_nat s →
      initial_font_weight (some s) = some "bold")
    ∧ (py_isdigit s = true →
      initial_font_size (some s) fs = ((str_to_nat s : ℕ) : ℝ))
    ∧ (py_isdigit s = false → initial_font_size (some s) fs = fs)
    ∧ initial_font_size none fs = fs := by
  have hne : py_isdigit s = true → s ≠ "" := by
    intro h heq
    rw [heq] at h
    simp [py_isdigit] at h
  refine ⟨?_, ?_, ?_, rfl⟩
  · intro h1 h2
    simp [initial_font_weight, hne h1, h1, h2]
  · intro h1
    simp [initial_font_size, hne h1, h1]
  · intro h1
    simp [initial_font_size, h1]

/-- C9 witness: `font-weight="600"` becomes bold, `font-size="12"` gives 12. -/
theorem C9_font_attrs_witness :
    initial_font_weight (some "600") = some "bold"
    ∧ initial_font_size (some "12") 7 = ((str_to_nat "12" : ℕ) : ℝ) :=
  ⟨(C9_font_attrs "600" 7).1 (by decide) (by decide),
    (C9_font_attrs "12" 7).2.1 (by decide)⟩

/-- The rotation slot that `zip_letters` hands to the `i`-th character is the
`i`-th element of the rotate list (or `None` past its end). -/
lemma zip_letters_go_rotation (xl yl dxl dyl rl : List ℝ) :
    ∀ (cs : List Char) (k i : ℕ) (pos : LetterPos) (c : Char),
      (zip_letters_go xl yl dxl dyl rl k cs)[i]? = some (pos, c) →
      pos.r = rl[k + i]? := by
  intro cs
  induction cs with
  | nil => intro k i pos c h; simp [zip_letters_go] at h
  | cons c0 cs ih =>
    intro k i pos c h
    cases i with
    | zero =>
      rw [zip_letters_go, List.getElem?_cons_zero] at h
      obtain ⟨h1, -⟩ := Prod.mk.injEq .. ▸ Option.some.inj h
      rw [← h1]
      simp
    | succ j =>
      rw [zip_letters_go, List.getElem?_cons_succ] at h
      have := ih (k + 1) j pos c h
      rw [this]
      congr 1
      omega

/-- C6: a character beyond the end of the rotate list is rotated by the
list's last value; with the default list `[0]` (rotate attribute absent or
value list empty) every such rotation is 0. -/
theorem C6_rotation (xl yl dxl dyl rotate : List ℝ) (word : String) (i : ℕ)
    (pos : LetterPos) (c : Char)
    (hz : (zip_letters xl yl dxl dyl rotate word)[i]? = some (pos, c))
    (hlen : rotate.length ≤ i) :
    (∀ h : rotate ≠ [], char_rotation rotate pos.r = rotate.getLast h)
    ∧ (rotate = initial_rotate → char_rotation rotate pos.r = 0) := by
  have hr : pos.r = rotate[i]? := by
    have := zip_letters_go_rotation xl yl dxl dyl rotate word.toList 0 i pos c hz
    simpa using this
  have hnone : rotate[i]? = none := List.getElem?_eq_none hlen
  constructor
  · intro h
    rw [char_rotation.eq_def, hr, hnone]
    simp [last_r, List.getLast?_eq_getLast _ h]
  · intro h
    subst h
    rw [char_rotation.eq_def, hr, hnone]
    simp [last_r, initial_rotate]

/-- C6 witness: with rotate list `[1]` and text `"ab"`, the second character
(beyond the list's end) is rotated by the last value 1. -/
theorem C6_rotation_witness :
    char_rotation [(1 : ℝ)]
        (LetterPos.mk none none none none none).r
      = [(1 : ℝ)].getLast (by simp) :=
  (C6_rotation [] [] [] [] [(1 : ℝ)] "ab" 1
    (LetterPos.mk none none none none none) 'b' rfl (by simp)).1 (by simp)

/-- Shared evaluation helper: on the unit segment from the origin,
`point_following_path` at any distance beyond 1 falls off the path. -/
lemma pfp_unit_seg_gt (w : ℝ) (hw : 1 < w) :
    point_following_path
      [PathItem.moveTo ((0 : ℝ), (0 : ℝ)), PathItem.lineTo (1, 0)] w
      = PFP.nofind := by
  have hd : distance (0 : ℝ) (0 : ℝ) (1 : ℝ) (0 : ℝ) = 1 := by
    simp [distance]
  rw [point_following_path, pfp_go, pfp_go]
  simp only [hd]
  rw [if_pos (by linarith)]
  rw [pfp_go]

/-- C3: a path-following character whose samples are unavailable or whose
middle falls outside `[0, length]` emits nothing and leaves the bounding box
unchanged, while `text_path_width` still advances by the character's advance,
plus the letter spacing when the index is positive. -/
theorem C3_path_skip (cairo_path : FlatPath) (length letter_spacing : ℝ)
    (i : ℕ) (pos : LetterPos) (letter : Char) (te : TextExtents) (st : TState)
    (h1 : point_following_path cairo_path
      (st.text_path_width + (cursor_d_update pos st.cursor_d_position).1)
      ≠ PFP.err)
    (h2 : point_following_path cairo_path
      (st.text_path_width + (cursor_d_update pos st.cursor_d_position).1
        + te.x_advance / 2) ≠ PFP.err)
    (h3 : point_following_path cairo_path
      (st.text_path_width + (cursor_d_update pos st.cursor_d_position).1
        + te.x_advance) ≠ PFP.err)
    (h4 : point_following_path cairo_path
        (st.text_path_width + (cursor_d_update pos st.cursor_d_position).1)
        = PFP.nofind
      ∨ point_following_path cairo_path
        (st.text_path_width + (cursor_d_update pos st.cursor_d_position).1
          + te.x_advance / 2) = PFP.nofind
      ∨ point_following_path cairo_path
        (st.text_path_width + (cursor_d_update pos st.cursor_d_position).1
          + te.x_advance) = PFP.nofind
      ∨ ¬ (0 ≤ st.text_path_width
            + (cursor_d_update pos st.cursor_d_position).1 + te.x_advance / 2
          ∧ st.text_path_width
            + (cursor_d_update pos st.cursor_d_position).1 + te.x_advance / 2
            ≤ length)) :
    ∃ st', path_char_step cairo_path length letter_spacing i pos letter te st
        = some st'
      ∧ st'.bounding_box = st.bounding_box
      ∧ st'.emitted = st.emitted
      ∧ st'.text_path_width = st.text_path_width + te.x_advance
          + (if 0 < i then letter_spacing else 0) := by
  have htpw : st.text_path_width
      + (if i ≠ 0 then te.x_advance + letter_spacing else te.x_advance)
      = st.text_path_width + te.x_advance
        + (if 0 < i then letter_spacing else 0) := by
    rcases Nat.eq_zero_or_pos i with h0 | h0
    · subst h0; norm_num
    · rw [if_pos (Nat.pos_iff_ne_zero.mp h0), if_pos h0]; ring
  refine ⟨{ st with
      cursor_d_position := cursor_d_update pos st.cursor_d_position,
      text_path_width := st.text_path_width
        + (if i ≠ 0 then te.x_advance + letter_spacing else te.x_advance) },
    ?_, rfl, rfl, htpw⟩
  simp only [path_char_step]
  rcases hS : (point_following_path cairo_path
      (st.text_path_width + (cursor_d_update pos st.cursor_d_position).1))
    with ⟨xs, ys⟩ | _ | _
  all_goals try exact absurd hS h1
  all_goals rcases hM : (point_following_path cairo_path
      (st.text_path_width + (cursor_d_update pos st.cursor_d_position).1
        + te.x_advance / 2))
    with ⟨xm, ym⟩ | _ | _
  all_goals try exact absurd hM h2
  all_goals rcases hE : (point_following_path cairo_path
      (st.text_path_width + (cursor_d_update pos st.cursor_d_position).1
        + te.x_advance))
    with ⟨xe, ye⟩ | _ | _
  all_goals try exact absurd hE h3
  -- the all-points case: the range check must have failed
  · rcases h4 with h | h | h | h
    · rw [hS] at h; exact absurd h (by simp)
    · rw [hM] at h; exact absurd h (by simp)
    · rw [hE] at h; exact absurd h (by simp)
    · simp [h]
  all_goals rfl

/-- C3 witness: on the unit segment with the cursor already at 10, a
character of advance 4 at index 1 with letter spacing 2 is skipped but the
cursor still advances to 16. -/
theorem C3_path_skip_witness :
    ∃ st', path_char_step
        [PathItem.moveTo ((0 : ℝ), (0 : ℝ)), PathItem.lineTo (1, 0)] 1 2 1
        (LetterPos.mk none none none none none) 'a'
        (TextExtents.mk 0 0 0 7 4 0)
        (TState.mk 10 (0, 0) EMPTY_BOUNDING_BOX [])
        = some st'
      ∧ st'.bounding_box = (TState.mk (10 : ℝ) (0, 0) EMPTY_BOUNDING_BOX []).bounding_box
      ∧ st'.emitted = (TState.mk (10 : ℝ) (0, 0) EMPTY_BOUNDING_BOX []).emitted
      ∧ st'.text_path_width = (TState.mk (10 : ℝ) (0, 0) EMPTY_BOUNDING_BOX []).text_path_width
          + (TextExtents.mk (0 : ℝ) 0 0 7 4 0).x_advance
          + (if 0 < 1 then (2 : ℝ) else 0) := by
  have hd : (cursor_d_update (LetterPos.mk none none none none none)
      ((0 : ℝ), (0 : ℝ))).1 = 0 := by
    simp [cursor_d_update]
  refine C3_path_skip _ 1 2 1 _ 'a' _ _ ?_ ?_ ?_ ?_
  · rw [show ((TState.mk (10 : ℝ) (0, 0) EMPTY_BOUNDING_BOX []).text_path_width
      + (cursor_d_update (LetterPos.mk none none none none none)
        (TState.mk (10 : ℝ) (0, 0) EMPTY_BOUNDING_BOX []).cursor_d_position).1)
      = (10 : ℝ) by rw [hd]; norm_num]
    rw [pfp_unit_seg_gt 10 (by norm_num)]
    simp
  · rw [show ((TState.mk (10 : ℝ) (0, 0) EMPTY_BOUNDING_BOX []).text_path_width
      + (cursor_d_update (LetterPos.mk none none none none none)
        (TState.mk (10 : ℝ) (0, 0) EMPTY_BOUNDING_BOX []).cursor_d_position).1
      + (TextExtents.mk (0 : ℝ) 0 0 7 4 0).x_advance / 2) = (12 : ℝ) by
        rw [hd]; norm_num]
    rw [pfp_unit_seg_gt 12 (by norm_num)]
    simp
  · rw [show ((TState.mk (10 : ℝ) (0, 0) EMPTY_BOUNDING_BOX []).text_path_width
      + (cursor_d_update (LetterPos.mk none none none none none)
        (TState.mk (10 : ℝ) (0, 0) EMPTY_BOUNDING_BOX []).cursor_d_position).1
      + (TextExtents.mk (0 : ℝ) 0 0 7 4 0).x_advance) = (14 : ℝ) by
        rw [hd]; norm_num]
    rw [pfp_unit_seg_gt 14 (by norm_num)]
    simp
  · refine Or.inr (Or.inr (Or.inr ?_))
    rw [hd]
    intro hcontra
    have := hcontra.2
    norm_num at this

/-! ### Geometry of the path sampler -/

lemma distance_nonneg (x1 y1 x2 y2 : ℝ) : 0 ≤ distance x1 y1 x2 y2 :=
  Real.sqrt_nonneg _

lemma poly_length_nonneg (o : ℝ × ℝ) (ps : List (ℝ × ℝ)) :
    0 ≤ poly_length o ps := by
  induction ps generalizing o with
  | nil => simp [poly_length]
  | cons p ps ih =>
    rw [poly_length]
    have := distance_nonneg o.1 o.2 p.1 p.2
    have := ih p
    linarith

lemma distance_eq_abs (o p : ℝ × ℝ) :
    distance o.1 o.2 p.1 p.2 = Complex.abs ⟨p.1 - o.1, p.2 - o.2⟩ := by
  rw [distance, Complex.abs_apply, Complex.normSq_mk]
  congr 1
  ring

lemma distance_eq_zero (o p : ℝ × ℝ) (h : distance o.1 o.2 p.1 p.2 = 0) :
    p = o := by
  rw [distance] at h
  have hsum : (p.1 - o.1) ^ 2 + (p.2 - o.2) ^ 2 = 0 := by
    have h1 : (0 : ℝ) ≤ (p.1 - o.1) ^ 2 + (p.2 - o.2) ^ 2 := by positivity
    exact (Real.sqrt_eq_zero h1).mp h
  have h1 : p.1 - o.1 = 0 := by nlinarith [sq_nonneg (p.1 - o.1), sq_nonneg (p.2 - o.2)]
  have h2 : p.2 - o.2 = 0 := by nlinarith [sq_nonneg (p.1 - o.1), sq_nonneg (p.2 - o.2)]
  ext
  · linarith
  · linarith

lemma cos_arg_mul_abs (z : ℂ) :
    Real.cos (Complex.arg z) * Complex.abs z = z.re := by
  rcases eq_or_ne z 0 with rfl | hz
  · simp
  · rw [Complex.cos_arg hz]
    rw [div_mul_cancel₀ _ (Complex.abs.ne_zero hz)]

lemma sin_arg_mul_abs (z : ℂ) :
    Real.sin (Complex.arg z) * Complex.abs z = z.im := by
  rcases eq_or_ne z 0 with rfl | hz
  · simp
  · rw [Complex.sin_arg]
    rw [div_mul_cancel₀ _ (Complex.abs.ne_zero hz)]

/-- Landing exactly at the far end of a segment reproduces its endpoint. -/
lemma seg_full_x (o p : ℝ × ℝ) :
    Real.cos (point_angle o.1 o.2 p.1 p.2) * distance o.1 o.2 p.1 p.2 + o.1
      = p.1 := by
  rw [point_angle, distance_eq_abs, cos_arg_mul_abs]
  simp

lemma seg_full_y (o p : ℝ × ℝ) :
    Real.sin (point_angle o.1 o.2 p.1 p.2) * distance o.1 o.2 p.1 p.2 + o.2
      = p.2 := by
  rw [point_angle, distance_eq_abs, sin_arg_mul_abs]
  simp

/-- When the running total reaches `width` on the current segment, the loop
returns the interpolated point at `width - total` along the segment. -/
lemma pfp_go_return (o p : ℝ × ℝ) (rest : FlatPath) (total w : ℝ)
    (h : w ≤ total + distance o.1 o.2 p.1 p.2) :
    pfp_go (some o) total w (PathItem.lineTo p :: rest)
      = PFP.pt (Real.cos (point_angle o.1 o.2 p.1 p.2) * (w - total) + o.1)
               (Real.sin (point_angle o.1 o.2 p.1 p.2) * (w - total) + o.2) := by
  rw [pfp_go]
  simp only
  rw [if_neg (not_lt.mpr h)]
  congr 2 <;> ring

/-- A zero-length tail of a polyline keeps every point at the start. -/
lemma poly_length_zero_getLast (ps : List (ℝ × ℝ)) :
    ∀ (o : ℝ × ℝ), poly_length o ps = 0 → ∀ (hps : ps ≠ []),
      ps.getLast hps = o := by
  induction ps with
  | nil => intro o _ hps; exact absurd rfl hps
  | cons p ps ih =>
    intro o h hps
    rw [poly_length] at h
    have hd0 : distance o.1 o.2 p.1 p.2 = 0 := by
      have := distance_nonneg o.1 o.2 p.1 p.2
      have := poly_length_nonneg p ps
      linarith
    have hpo : p = o := distance_eq_zero o p hd0
    have hrest : poly_length p ps = 0 := by
      have := distance_nonneg o.1 o.2 p.1 p.2
      linarith
    revert hps
    cases ps with
    | nil => intro hps; simp [List.getLast, hpo]
    | cons q qs =>
      intro hps
      rw [List.getLast_cons (by simp)]
      rw [ih p hrest (by simp), hpo]

/-- Off the far end of a run of line segments the loop finds nothing. -/
lemma pfp_go_lines_off (ps : List (ℝ × ℝ)) :
    ∀ (o : ℝ × ℝ) (total w : ℝ), total + poly_length o ps < w →
      pfp_go (some o) total w (ps.map PathItem.lineTo) = PFP.nofind := by
  induction ps with
  | nil => intro o total w _; simp [pfp_go]
  | cons p ps ih =>
    intro o total w h
    rw [poly_length] at h
    have hpoly := poly_length_nonneg p ps
    rw [List.map_cons, pfp_go]
    simp only
    rw [if_pos (by linarith)]
    exact ih p _ w (by linarith)

/-- Within the run's length the loop always returns a point. -/
lemma pfp_go_lines_hit (ps : List (ℝ × ℝ)) :
    ∀ (o : ℝ × ℝ) (total w : ℝ), ps ≠ [] → w ≤ total + poly_length o ps →
      ∃ x y, pfp_go (some o) total w (ps.map PathItem.lineTo) = PFP.pt x y := by
  induction ps with
  | nil => intro o total w hps _; exact absurd rfl hps
  | cons p ps ih =>
    intro o total w _ h
    rw [poly_length] at h
    by_cases htp : total + distance o.1 o.2 p.1 p.2 < w
    · have hps : ps ≠ [] := by
        rintro rfl
        rw [poly_length] at h
        linarith
      rw [List.map_cons, pfp_go]
      simp only
      rw [if_pos htp]
      exact ih p _ w hps (by linarith)
    · rw [List.map_cons]
      exact ⟨_, _, pfp_go_return o p _ total w (not_lt.mp htp)⟩

/-- At exactly the run's total length the loop returns the run's last
point. -/
lemma pfp_go_lines_at_end (ps : List (ℝ × ℝ)) :
    ∀ (o : ℝ × ℝ) (total w : ℝ) (hps : ps ≠ []),
      w = total + poly_length o ps →
      pfp_go (some o) total w (ps.map PathItem.lineTo)
        = PFP.pt (ps.getLast hps).1 (ps.getLast hps).2 := by
  induction ps with
  | nil => intro o total w hps _; exact absurd rfl hps
  | cons p ps ih =>
    intro o total w hps hw
    rw [poly_length] at hw
    have hpoly := poly_length_nonneg p ps
    revert hps
    cases ps with
    | nil =>
      intro hps
      rw [poly_length] at hw
      rw [List.map_cons]
      rw [pfp_go_return o p _ total w (by linarith)]
      have hwt : w - total = distance o.1 o.2 p.1 p.2 := by linarith
      rw [hwt, seg_full_x, seg_full_y]
      simp [List.getLast]
    | cons q qs =>
      intro hps
      have hpsne : q :: qs ≠ [] := by simp
      rcases eq_or_lt_of_le hpoly with hz | hz
      · -- zero-length tail: the loop returns on this segment, and the
        -- last point coincides with `p`
        rw [List.map_cons]
        rw [pfp_go_return o p _ total w (by linarith)]
        have hwt : w - total = distance o.1 o.2 p.1 p.2 := by linarith
        rw [hwt, seg_full_x, seg_full_y]
        rw [List.getLast_cons hpsne]
        rw [poly_length_zero_getLast (q :: qs) p hz.symm hpsne]
      · rw [List.map_cons, pfp_go]
        simp only
        rw [if_pos (by linarith)]
        rw [List.getLast_cons hpsne]
        exact ih p _ w hpsne (by linarith)

/-- The running total of `path_length` over a run of line segments. -/
lemma path_length_go_lines (ps : List (ℝ × ℝ)) :
    ∀ (o : ℝ × ℝ) (acc : ℝ),
      path_length_go (some o) acc (ps.map PathItem.lineTo)
        = some (acc + poly_length o ps) := by
  induction ps with
  | nil => intro o acc; simp [path_length_go, poly_length]
  | cons p ps ih =>
    intro o acc
    rw [List.map_cons, path_length_go, ih p, poly_length]
    congr 1
    ring

/-- C4 counterexample: on the flattened path consisting of a single move-to,
`pointAtDistance` at 0 returns "none" although 0 does not exceed the path's
total length 0, and "none" is not the path's first point `(3, 4)`. -/
theorem C4_counterexample :
    point_following_path [PathItem.moveTo ((3 : ℝ), 4)] 0 = PFP.nofind
    ∧ path_length [PathItem.moveTo ((3 : ℝ), 4)] = some 0
    ∧ PFP.nofind ≠ PFP.pt 3 4 := by
  refine ⟨?_, ?_, by simp⟩
  · rw [point_following_path, pfp_go, pfp_go]
  · rw [path_length, path_length_go, path_length_go]

/-- C4 (amended to single-subpath polylines, which is what the path-following
callers sample): on a path of one move-to followed by at least one line-to,
`pointAtDistance` at 0 is the first point, at `pathLength` it is the last
point, beyond `pathLength` it is "none", and it is "none" exactly when the
target exceeds the total length. -/
theorem C4_point_sampler (p0 : ℝ × ℝ) (ps : List (ℝ × ℝ)) (hps : ps ≠ [])
    (w : ℝ) :
    path_length (PathItem.moveTo p0 :: ps.map PathItem.lineTo)
      = some (poly_length p0 ps)
    ∧ point_following_path (PathItem.moveTo p0 :: ps.map PathItem.lineTo) 0
      = PFP.pt p0.1 p0.2
    ∧ point_following_path (PathItem.moveTo p0 :: ps.map PathItem.lineTo)
        (poly_length p0 ps)
      = PFP.pt (ps.getLast hps).1 (ps.getLast hps).2
    ∧ (poly_length p0 ps < w →
      point_following_path (PathItem.moveTo p0 :: ps.map PathItem.lineTo) w
        = PFP.nofind)
    ∧ (point_following_path (PathItem.moveTo p0 :: ps.map PathItem.lineTo) w
        = PFP.nofind ↔ poly_length p0 ps < w) := by
  obtain ⟨q, qs, rfl⟩ := List.exists_cons_of_ne_nil hps
  have hoff : ∀ v : ℝ, poly_length p0 (q :: qs) < v →
      point_following_path
        (PathItem.moveTo p0 :: (q :: qs).map PathItem.lineTo) v
        = PFP.nofind := by
    intro v hv
    rw [point_following_path, pfp_go]
    exact pfp_go_lines_off (q :: qs) p0 0 v (by linarith)
  refine ⟨?_, ?_, ?_, hoff w, ?_⟩
  · rw [path_length, path_length_go, path_length_go_lines]
    norm_num
  · rw [point_following_path, pfp_go, List.map_cons]
    rw [pfp_go_return p0 q _ 0 0
      (by have := distance_nonneg p0.1 p0.2 q.1 q.2; linarith)]
    norm_num
  · rw [point_following_path, pfp_go]
    exact pfp_go_lines_at_end (q :: qs) p0 0 _ hps (by ring)
  · constructor
    · intro hnof
      by_contra hle
      obtain ⟨x, y, hxy⟩ := pfp_go_lines_hit (q :: qs) p0 0 w hps
        (by rw [zero_add]; exact not_lt.mp hle)
      rw [point_following_path, pfp_go, hxy] at hnof
      exact absurd hnof (by simp)
    · exact hoff w

/-- C4 witness: the unit segment from the origin, queried at 2 (past its
length). -/
theorem C4_point_sampler_witness :
    path_length [PathItem.moveTo ((0 : ℝ), (0 : ℝ)), PathItem.lineTo (1, 0)]
      = some (poly_length ((0 : ℝ), (0 : ℝ)) [((1 : ℝ), (0 : ℝ))])
    ∧ point_following_path
        [PathItem.moveTo ((0 : ℝ), (0 : ℝ)), PathItem.lineTo (1, 0)] 0
      = PFP.pt 0 0
    ∧ point_following_path
        [PathItem.moveTo ((0 : ℝ), (0 : ℝ)), PathItem.lineTo (1, 0)]
        (poly_length ((0 : ℝ), (0 : ℝ)) [((1 : ℝ), (0 : ℝ))])
      = PFP.pt 1 0
    ∧ point_following_path
        [PathItem.moveTo ((0 : ℝ), (0 : ℝ)), PathItem.lineTo (1, 0)] 2
      = PFP.nofind := by
  have h := C4_point_sampler ((0 : ℝ), (0 : ℝ)) [((1 : ℝ), (0 : ℝ))]
    (by simp) 2
  have hlen : poly_length ((0 : ℝ), (0 : ℝ)) [((1 : ℝ), (0 : ℝ))] = 1 := by
    simp [poly_length, distance]
  refine ⟨?_, ?_, ?_, ?_⟩
  · simpa using h.1
  · simpa using h.2.1
  · simpa using h.2.2.1
  · exact h.2.2.2.1 (by rw [hlen]; norm_num)

/-- A run of the path containing no line-to only updates the remembered
move-to point. -/
lemma pfp_go_skip_moves (pre : FlatPath) :
    ∀ (old : Option (ℝ × ℝ)) (total w : ℝ) (rest : FlatPath),
      (∀ q ∈ pre, ∀ p, q ≠ PathItem.lineTo p) →
      pfp_go old total w (pre ++ rest)
        = pfp_go (last_move_from old pre) total w rest := by
  induction pre with
  | nil => intro old total w rest _; rw [List.nil_append, last_move_from]
  | cons q pre ih =>
    intro old total w rest hq
    cases q with
    | moveTo p =>
      rw [List.cons_append, pfp_go, last_move_from]
      exact ih _ total w rest (fun q hq2 => hq q (by simp [hq2]))
    | lineTo p => exact absurd rfl (hq (PathItem.lineTo p) (by simp) p)
    | closePath =>
      rw [List.cons_append, pfp_go, last_move_from]
      exact ih _ total w rest (fun q hq2 => hq q (by simp [hq2]))

/-- C10: a negative target distance on a path with at least one line-to does
not fall off the path: the first line segment's branch fires immediately and
back-off past the segment's start extrapolates with the (negative) residual
length `w` along the first segment's direction. -/
theorem C10_negative_target (pre : FlatPath) (p0 p1 : ℝ × ℝ) (rest : FlatPath)
    (w : ℝ)
    (hpre : ∀ q ∈ pre, ∀ p, q ≠ PathItem.lineTo p)
    (hm : last_move_from none pre = some p0)
    (hw : w < 0) :
    point_following_path (pre ++ PathItem.lineTo p1 :: rest) w
      = PFP.pt (Real.cos (point_angle p0.1 p0.2 p1.1 p1.2) * w + p0.1)
               (Real.sin (point_angle p0.1 p0.2 p1.1 p1.2) * w + p0.2)
    ∧ point_following_path (pre ++ PathItem.lineTo p1 :: rest) w
      ≠ PFP.nofind := by
  have hstep : point_following_path (pre ++ PathItem.lineTo p1 :: rest) w
      = PFP.pt (Real.cos (point_angle p0.1 p0.2 p1.1 p1.2) * w + p0.1)
               (Real.sin (point_angle p0.1 p0.2 p1.1 p1.2) * w + p0.2) := by
    rw [point_following_path, pfp_go_skip_moves pre none 0 w _ hpre, hm]
    rw [pfp_go_return p0 p1 rest 0 w
      (by have := distance_nonneg p0.1 p0.2 p1.1 p1.2; linarith)]
    norm_num
  exact ⟨hstep, by rw [hstep]; simp⟩

/-- C10 witness: the unit segment from the origin queried at `-2` yields the
backwards extrapolation `(-2, 0)`. -/
theorem C10_negative_target_witness :
    point_following_path
      [PathItem.moveTo ((0 : ℝ), (0 : ℝ)), PathItem.lineTo (1, 0)] (-2)
      = PFP.pt (-2) 0 := by
  have h := (C10_negative_target [PathItem.moveTo ((0 : ℝ), (0 : ℝ))]
    ((0 : ℝ), (0 : ℝ)) ((1 : ℝ), (0 : ℝ)) [] (-2)
    (by intro q hq p; simp at hq; subst hq; simp)
    (by rw [last_move_from, last_move_from])
    (by norm_num)).1
  have harg : point_angle (0 : ℝ) (0 : ℝ) (1 : ℝ) (0 : ℝ) = 0 := by
    rw [point_angle]
    norm_num
    exact Complex.arg_one
  rw [show ([PathItem.moveTo ((0 : ℝ), (0 : ℝ)), PathItem.lineTo (1, 0)]
      : FlatPath)
    = [PathItem.moveTo ((0 : ℝ), (0 : ℝ))] ++ PathItem.lineTo (1, 0) :: []
      from rfl]
  rw [h, harg]
  norm_num

/-! ### Tree lemmas for the extent aggregator -/

lemma nodeAt_append (a : List ℕ) :
    ∀ (b : List ℕ) (t : DNode),
      nodeAt t (a ++ b) = (nodeAt t a).bind (fun n => nodeAt n b) := by
  induction a with
  | nil => intro b t; simp [nodeAt]
  | cons i a ih =>
    intro b t
    rw [List.cons_append, nodeAt]
    cases hc : t.children[i]? with
    | none => rw [nodeAt, hc]; rfl
    | some c => rw [nodeAt, hc]; exact ih b c

lemma mem_iterLocsList (cs : List DNode) :
    ∀ (k i : ℕ) (c : DNode) (rel : List ℕ), cs[i]? = some c →
      rel ∈ iterLocs c → (k + i) :: rel ∈ iterLocsList k cs := by
  induction cs with
  | nil => intro k i c rel h _; simp at h
  | cons c0 cs ih =>
    intro k i c rel h hm
    cases i with
    | zero =>
      rw [List.getElem?_cons_zero] at h
      obtain rfl := Option.some.inj h
      rw [iterLocsList]
      refine List.mem_append_left _ ?_
      exact List.mem_map.mpr ⟨rel, hm, by norm_num⟩
    | succ j =>
      rw [List.getElem?_cons_succ] at h
      rw [iterLocsList]
      refine List.mem_append_right _ ?_
      have := ih (k + 1) j c rel h hm
      have harith : k + 1 + j = k + (j + 1) := by omega
      rw [harith] at this
      exact this

lemma mem_iterLocs_of_nodeAt (rel : List ℕ) :
    ∀ (n : DNode), nodeAt n rel ≠ none → rel ∈ iterLocs n := by
  induction rel with
  | nil => intro n _; cases n with | mk tg cs => rw [iterLocs]; simp
  | cons i rest ih =>
    intro n h
    cases n with
    | mk tg cs =>
      rw [nodeAt] at h
      cases hc : (DNode.mk tg cs).children[i]? with
      | none => rw [hc] at h; simp at h
      | some c =>
        rw [hc] at h
        have hm := ih c h
        rw [iterLocs]
        refine List.mem_cons_of_mem _ ?_
        have := mem_iterLocsList cs 0 i c rest (by simpa [DNode.children] using hc) hm
        simpa using this

/-- Shape of the walk-up (text.py lines 89-91): the result is a prefix
`loc.take k` of `loc`; it is tagged `text` unless it is the root; and its
length bounds every `text`-tagged prefix of `loc` from above. -/
lemma walk_up_spec (t : DNode) (loc : List ℕ) :
    (∃ k, k ≤ loc.length ∧ walk_up t loc = loc.take k)
    ∧ (tagAt t (walk_up t loc) = "text" ∨ walk_up t loc = [])
    ∧ (∀ j, j ≤ loc.length → tagAt t (loc.take j) = "text" →
        j ≤ (walk_up t loc).length) := by
  by_cases h0 : loc = []
  · subst h0
    rw [walk_up]
    refine ⟨⟨0, by simp⟩, Or.inr rfl, ?_⟩
    intro j hj _
    simpa using hj
  · by_cases htag : tagAt t loc = "text"
    · have heq : walk_up t loc = loc := by rw [walk_up]; simp [h0, htag]
      refine ⟨⟨loc.length, le_rfl, by rw [heq, List.take_length]⟩,
        Or.inl (by rw [heq]; exact htag), ?_⟩
      intro j hj _
      rw [heq]
      exact hj
    · have heq : walk_up t loc = walk_up t loc.dropLast := by
        rw [walk_up]; simp [h0, htag]
      have hlt : loc.dropLast.length < loc.length := by
        rw [List.length_dropLast]
        have := List.length_pos.mpr h0
        omega
      obtain ⟨⟨k, hk, hw⟩, h2, h3⟩ := walk_up_spec t loc.dropLast
      have htake : ∀ j, j ≤ loc.dropLast.length →
          loc.dropLast.take j = loc.take j := by
        intro j hj
        rw [List.dropLast_eq_take, List.take_take]
        congr 1
        rw [List.length_dropLast] at hj
        omega
      refine ⟨⟨k, ?_, ?_⟩, ?_, ?_⟩
      · omega
      · rw [heq, hw, htake k hk]
      · rw [heq]; exact h2
      · intro j hj hjt
        rw [heq]
        have hjne : j ≠ loc.length := by
          intro hcontra
          rw [hcontra, List.take_length] at hjt
          exact htag hjt
        have hj2 : j ≤ loc.dropLast.length := by
          rw [List.length_dropLast]; omega
        exact h3 j hj2 (by rw [htake j hj2]; exact hjt)
termination_by loc.length
decreasing_by
  rw [List.length_dropLast]
  have := List.length_pos.mpr h0
  omega

/-- Head of the filtered reversed range when `k` is the largest index
satisfying the predicate. -/
lemma filter_rev_range_head_max (p : ℕ → Bool) :
    ∀ (n k : ℕ), k ≤ n → p k = true → (∀ j, j ≤ n → p j = true → j ≤ k) →
      (((List.range (n + 1)).reverse).filter p).head? = some k := by
  intro n
  induction n with
  | zero =>
    intro k hk hpk _
    obtain rfl : k = 0 := Nat.le_zero.mp hk
    simp [List.range_succ, hpk]
  | succ n ih =>
    intro k hk hpk hmax
    rw [List.range_succ, List.reverse_append]
    cases hp : p (n + 1) with
    | true =>
      obtain rfl : k = n + 1 := le_antisymm hk (hmax (n + 1) le_rfl hp)
      simp [hp]
    | false =>
      have hkn : k ≤ n := by
        have := hmax k (by omega) hpk
        rcases Nat.lt_or_ge k (n + 1) with h | h
        · omega
        · exfalso
          obtain rfl : k = n + 1 := by omega
          rw [hp] at hpk
          exact Bool.false_ne_true hpk
      have := ih k hkn hpk (fun j hj hpj => hmax j (by omega) hpj)
      simpa [hp] using this

/-- Head of the filtered reversed range when no index satisfies the
predicate. -/
lemma filter_rev_range_head_none (p : ℕ → Bool) (n : ℕ)
    (h : ∀ j, j ≤ n → p j = false) :
    (((List.range (n + 1)).reverse).filter p).head? = none := by
  have : ((List.range (n + 1)).reverse).filter p = [] := by
    rw [ List.filter_eq_nil_iff]
    intro a ha
    rw [List.mem_reverse, List.mem_range] at ha
    rw [h a (by omega)]
    simp
  rw [this]
  rfl

/-- The code's container election agrees with the claim's description: the
nearest inclusive ancestor tagged `text`, or the node itself when there is
none. -/
lemma find_container_eq_nearest (t : DNode) (loc : List ℕ) :
    find_container t loc = nearest_text_ancestor t loc := by
  obtain ⟨⟨k, hk, hw⟩, h2, h3⟩ := walk_up_spec t loc
  by_cases htag : tagAt t (walk_up t loc) = "text"
  · have hklen : (walk_up t loc).length = k := by
      rw [hw, List.length_take]
      omega
    have hhead := filter_rev_range_head_max
      (fun j => tagAt t (loc.take j) == "text") loc.length k hk
      (by rw [beq_iff_eq, ← hw]; exact htag)
      (by
        intro j hj hpj
        rw [beq_iff_eq] at hpj
        have := h3 j hj hpj
        omega)
    rw [nearest_text_ancestor, hhead, find_container]
    simp [htag, hw]
    intro _ h2
    exact absurd (hw ▸ htag) h2
  · have hnil : walk_up t loc = [] := by
      rcases h2 with h | h
      · exact absurd h htag
      · exact h
    have hnone := filter_rev_range_head_none
      (fun j => tagAt t (loc.take j) == "text") loc.length
      (by
        intro j hj
        rw [Bool.eq_false_iff, ne_eq, beq_iff_eq]
        intro hpj
        have := h3 j hj hpj
        rw [hnil] at this
        simp at this
        subst this
        rw [List.take_zero] at hpj
        rw [hnil] at htag
        exact htag hpj)
    rw [nearest_text_ancestor, hnone, find_container]
    by_cases hloc : loc = []
    · subst hloc
      simp [hnil]
    · rw [if_pos ⟨by rw [hnil]; exact fun h => hloc h.symm, htag⟩]

/-- The width accumulated by the measure fold is the sum of all visited
widths. -/
lemma foldl_measure_w (ext : List ℕ → TextExtents) (loc : List ℕ) :
    ∀ (L : List (List ℕ)) (a : ExtAcc),
      (L.foldl (measure_step ext loc) a).w
        = a.w + (L.map (fun sl => (ext sl).width)).sum := by
  intro L
  induction L with
  | nil => intro a; simp
  | cons sl L ih =>
    intro a
    rw [List.foldl_cons, ih, List.map_cons, List.sum_cons]
    rw [measure_step]
    simp only
    ring

/-- The bearing/height slots of the measure fold are untouched when the
queried node is never visited. -/
lemma foldl_measure_not_mem (ext : List ℕ → TextExtents) (loc : List ℕ) :
    ∀ (L : List (List ℕ)) (a : ExtAcc), loc ∉ L →
      (L.foldl (measure_step ext loc) a).xb = a.xb
      ∧ (L.foldl (measure_step ext loc) a).yb = a.yb
      ∧ (L.foldl (measure_step ext loc) a).h = a.h := by
  intro L
  induction L with
  | nil => intro a _; exact ⟨rfl, rfl, rfl⟩
  | cons sl L ih =>
    intro a hmem
    have hne : sl ≠ loc := fun h => hmem (by rw [h]; exact List.mem_cons_self _ _)
    have hnot : loc ∉ L := fun h => hmem (List.mem_cons_of_mem _ h)
    rw [List.foldl_cons]
    have := ih (measure_step ext loc a sl) hnot
    rw [this.1, this.2.1, this.2.2]
    rw [measure_step]
    simp [hne]

/-- The bearing/height slots of the measure fold hold the queried node's own
extents whenever it is visited. -/
lemma foldl_measure_mem (ext : List ℕ → TextExtents) (loc : List ℕ) :
    ∀ (L : List (List ℕ)) (a : ExtAcc), loc ∈ L →
      (L.foldl (measure_step ext loc) a).xb = (ext loc).x_bearing
      ∧ (L.foldl (measure_step ext loc) a).yb = (ext loc).y_bearing
      ∧ (L.foldl (measure_step ext loc) a).h = (ext loc).height := by
  intro L
  induction L with
  | nil => intro a h; simp at h
  | cons sl L ih =>
    intro a hmem
    rw [List.foldl_cons]
    by_cases hL : loc ∈ L
    · exact ih _ hL
    · have hsl : sl = loc := by
        rcases List.mem_cons.mp hmem with h | h
        · exact h.symm
        · exact absurd h hL
      have := foldl_measure_not_mem ext loc L (measure_step ext loc a sl) hL
      rw [this.1, this.2.1, this.2.2]
      rw [measure_step]
      simp [hsl]

/-- C1: `get_node_text_extents` elects the nearest inclusive `text`-tagged
ancestor as container (the node itself when none exists), sums the widths of
all the container's descendants in pre-order, takes the bearings and height
from the queried node alone, and returns `xAdvance = width - xBearing`,
`yAdvance = height - yBearing`. -/
theorem C1_measure (ext : List ℕ → TextExtents) (t : DNode) (loc : List ℕ)
    (hv : nodeAt t loc ≠ none) :
    find_container t loc = nearest_text_ancestor t loc
    ∧ (get_node_text_extents ext t loc).width
      = (((iterLocs (nodeAtD t (find_container t loc))).map
          (fun l => find_container t loc ++ l)).map
            (fun sl => (ext sl).width)).sum
    ∧ (get_node_text_extents ext t loc).x_bearing = (ext loc).x_bearing
    ∧ (get_node_text_extents ext t loc).y_bearing = (ext loc).y_bearing
    ∧ (get_node_text_extents ext t loc).height = (ext loc).height
    ∧ (get_node_text_extents ext t loc).x_advance
      = (get_node_text_extents ext t loc).width - (ext loc).x_bearing
    ∧ (get_node_text_extents ext t loc).y_advance
      = (get_node_text_extents ext t loc).height - (ext loc).y_bearing := by
  obtain ⟨⟨k, hk, hw⟩, -, -⟩ := walk_up_spec t loc
  have hctake : ∃ m, m ≤ loc.length ∧ find_container t loc = loc.take m := by
    rw [find_container]
    by_cases hcond : walk_up t loc ≠ loc ∧ tagAt t (walk_up t loc) ≠ "text"
    · rw [if_pos hcond]
      exact ⟨loc.length, le_rfl, (List.take_length loc).symm⟩
    · rw [if_neg hcond]
      exact ⟨k, hk, hw⟩
  obtain ⟨m, hm, hc⟩ := hctake
  have hsplit : find_container t loc ++ loc.drop m = loc := by
    rw [hc]
    exact List.take_append_drop m loc
  have hcn : ∃ cn, nodeAt t (find_container t loc) = some cn
      ∧ nodeAt cn (loc.drop m) ≠ none := by
    have := nodeAt_append (find_container t loc) (loc.drop m) t
    rw [hsplit] at this
    cases hcc : nodeAt t (find_container t loc) with
    | none => rw [hcc] at this; rw [this] at hv; exact absurd rfl hv
    | some cn =>
      rw [hcc] at this
      exact ⟨cn, rfl, by rw [this] at hv; exact hv⟩
  obtain ⟨cn, hcn1, hcn2⟩ := hcn
  have hmem : loc ∈ (iterLocs (nodeAtD t (find_container t loc))).map
      (fun l => find_container t loc ++ l) := by
    rw [nodeAtD, hcn1]
    exact List.mem_map.mpr ⟨loc.drop m, mem_iterLocs_of_nodeAt _ cn hcn2,
      hsplit⟩
  have hfold := foldl_measure_mem ext loc
    ((iterLocs (nodeAtD t (find_container t loc))).map
      (fun l => find_container t loc ++ l)) ⟨0, 0, 0, 0⟩ hmem
  have hfw := foldl_measure_w ext loc
    ((iterLocs (nodeAtD t (find_container t loc))).map
      (fun l => find_container t loc ++ l)) ⟨0, 0, 0, 0⟩
  refine ⟨find_container_eq_nearest t loc, ?_, ?_, ?_, ?_, ?_, ?_⟩
  · rw [get_node_text_extents]
    simp only
    rw [hfw]
    norm_num
  · rw [get_node_text_extents]
    simp only
    rw [hfold.1]
  · rw [get_node_text_extents]
    simp only
    rw [hfold.2.1]
  · rw [get_node_text_extents]
    simp only
    rw [hfold.2.2]
  · rw [get_node_text_extents]
    simp only
    rw [hfold.1]
  · rw [get_node_text_extents]
    simp only
    rw [hfold.2.2, hfold.2.1]

/-- C1 witness: a `text`-tagged root with two `tspan` children; measuring the
second child sums all three widths and takes the bearings from the child. -/
theorem C1_measure_witness :
    find_container (DNode.mk "text" [DNode.mk "tspan" [], DNode.mk "tspan" []])
        [1]
      = nearest_text_ancestor
        (DNode.mk "text" [DNode.mk "tspan" [], DNode.mk "tspan" []]) [1]
    ∧ (get_node_text_extents
        (fun l => TextExtents.mk ((l.length : ℝ) + 1) 3 ((l.sum : ℝ) + 10) 4 0 0)
        (DNode.mk "text" [DNode.mk "tspan" [], DNode.mk "tspan" []]) [1]).width
      = (((iterLocs (nodeAtD
            (DNode.mk "text" [DNode.mk "tspan" [], DNode.mk "tspan" []])
            (find_container
              (DNode.mk "text" [DNode.mk "tspan" [], DNode.mk "tspan" []])
              [1]))).map
          (fun l => find_container
            (DNode.mk "text" [DNode.mk "tspan" [], DNode.mk "tspan" []])
            [1] ++ l)).map
            (fun sl => ((fun l : List ℕ =>
              TextExtents.mk ((l.length : ℝ) + 1) 3 ((l.sum : ℝ) + 10) 4 0 0)
                sl).width)).sum
    ∧ (get_node_text_extents
        (fun l => TextExtents.mk ((l.length : ℝ) + 1) 3 ((l.sum : ℝ) + 10) 4 0 0)
        (DNode.mk "text" [DNode.mk "tspan" [], DNode.mk "tspan" []])
        [1]).x_bearing
      = ((fun l : List ℕ =>
          TextExtents.mk ((l.length : ℝ) + 1) 3 ((l.sum : ℝ) + 10) 4 0 0)
            [1]).x_bearing := by
  have h := C1_measure
    (fun l => TextExtents.mk ((l.length : ℝ) + 1) 3 ((l.sum : ℝ) + 10) 4 0 0)
    (DNode.mk "text" [DNode.mk "tspan" [], DNode.mk "tspan" []]) [1]
    (by rw [nodeAt]; simp [DNode.children, nodeAt])
  exact ⟨h.1, h.2.1, h.2.2.1⟩

end CairoSVGText
